import Mathlib

/-!
Verification development for the `profiling` package (what-studio/profiling).

The Python sources are shallowly embedded: Python floats are modelled as
rationals, Python dicts as insertion-ordered association lists, exceptions
as `Except`/`Option` results, and CPython's interpreter recursion limit as
an explicit fuel parameter (default limit 1000) on the functions that the
source implements by language-level recursion.
-/

namespace Profiling

/-! ## Statistics node recording (`profiling/stats.py`)

`RecordingStatistic` keeps `own_count`, `deep_time` and the pending-entry
table `_times_entered` (a dict from frame key to entry time).  Locks are
dropped: each method body is a single atomic transition here.
-/

/-- Association-list lookup, modelling a Python dict read. -/
def alookup {α β : Type} [DecidableEq α] : List (α × β) → α → Option β
  | [], _ => none
  | (k, v) :: rest, key => if k = key then some v else alookup rest key

/-- Association-list removal, modelling `dict.pop(key)` (the mutation part). -/
def aremove {α β : Type} [DecidableEq α] : List (α × β) → α → List (α × β)
  | [], _ => []
  | (k, v) :: rest, key => if k = key then rest else (k, v) :: aremove rest key

/-- Association-list insert-or-overwrite, modelling `dict[key] = value`. -/
def astore {α β : Type} [DecidableEq α] : List (α × β) → α → β → List (α × β)
  | [], key, val => [(key, val)]
  | (k, v) :: rest, key, val =>
      if k = key then (k, val) :: rest else (k, v) :: astore rest key val

/-- The mutable state of one `RecordingStatistic` node: `own_count`,
`deep_time`, and the pending-entry table `_times_entered`. -/
structure NodeState where
  ownCount : Nat
  deepTime : Rat
  timesEntered : List (Nat × Rat)
  deriving Repr, DecidableEq

/-- A fresh `RecordingStatistic` (class defaults `own_count = 0`,
`deep_time = 0.0`, empty `_times_entered`). -/
def NodeState.init : NodeState := ⟨0, 0, []⟩

/-- `RecordingStatistic.record_entering(time, frame_key)`: store the entry
time under the frame key and bump `own_count` (via `record_call`). -/
def recordEntering (s : NodeState) (time : Rat) (frameKey : Nat) : NodeState :=
  { s with timesEntered := astore s.timesEntered frameKey time,
           ownCount := s.ownCount + 1 }

/-- `RecordingStatistic.record_leaving(time, frame_key)`:
`time_entered = self._times_entered.pop(frame_key)` raises `KeyError` when
the key is absent (`Except.error` carries the node state at the moment the
exception is raised, i.e. unchanged); otherwise `deep_time` accumulates
`max(0, time - time_entered)`. -/
def recordLeaving (s : NodeState) (time : Rat) (frameKey : Nat) :
    Except NodeState NodeState :=
  match alookup s.timesEntered frameKey with
  | none => .error s
  | some timeEntered =>
      .ok { s with timesEntered := aremove s.timesEntered frameKey,
                   deepTime := s.deepTime + max 0 (time - timeEntered) }

/-! The tracing profiler (`profiling/tracing/__init__.py`) keeps its own
pending-entry table keyed by `(code, frame_key)` and looks the statistics
node up in the parent before recording; both lookups sit inside one
`try/except KeyError` whose handler just returns. -/

/-- The per-node data `TracingProfiler.record_leaving` can touch: the
node's hit counter and accumulated deep time. -/
structure ChildStat where
  ownHits : Nat
  deepTime : Rat
  deriving Repr, DecidableEq

/-- `TracingProfiler.record_leaving(time, code, frame_key, parent_stats)`:
look up the child for `code`, pop `(code, frame_key)` from the profiler's
`_times_entered`; a `KeyError` from either is caught and the method
returns, so the result is total.  Returns the updated pending table and
children map. -/
def profilerRecordLeaving (time : Rat) (code frameKey : Nat)
    (timesEntered : List ((Nat × Nat) × Rat))
    (children : List (Nat × ChildStat)) :
    List ((Nat × Nat) × Rat) × List (Nat × ChildStat) :=
  match alookup children code with
  | none => (timesEntered, children)
  | some stats =>
      match alookup timesEntered (code, frameKey) with
      | none => (timesEntered, children)
      | some timeEntered =>
          (aremove timesEntered (code, frameKey),
           astore children code
             { stats with deepTime := stats.deepTime + max 0 (time - timeEntered) })

/-! ## Root statistics (`RecordingStatistics.record_starting/_stopping`) -/

/-- The root `RecordingStatistics` totals: `cpu_time`, `wall_time` and the
pending start timestamps. -/
structure RootState where
  cpuTime : Rat
  wallTime : Rat
  cpuTimeStarted : Option Rat
  wallTimeStarted : Option Rat
  deriving Repr, DecidableEq

/-- A fresh root (class defaults `cpu_time = 0.0`, `wall_time = 0.0`). -/
def RootState.init : RootState := ⟨0, 0, none, none⟩

/-- `record_starting(time)`: remember the CPU timestamp and the current
wall clock (`self.wall()` is passed in as `wallNow`). -/
def recordStarting (s : RootState) (time wallNow : Rat) : RootState :=
  { s with cpuTimeStarted := some time, wallTimeStarted := some wallNow }

/-- `record_stopping(time)`: set `cpu_time = max(0, time - started)` and
`wall_time = max(0, wall() - started)`, clearing the start marks; raises
`RuntimeError` (modelled as `Except.error`) when starting was never
recorded. -/
def recordStopping (s : RootState) (time wallNow : Rat) :
    Except Unit RootState :=
  match s.cpuTimeStarted, s.wallTimeStarted with
  | some cpuStarted, some wallStarted =>
      .ok { s with cpuTime := max 0 (time - cpuStarted),
                   wallTime := max 0 (wallNow - wallStarted),
                   cpuTimeStarted := none, wallTimeStarted := none }
  | _, _ => .error ()

/-- `Statistics.own_time` at the root is the property returning
`cpu_time`. -/
def RootState.ownTime (s : RootState) : Rat := s.cpuTime

/-- `Statistics.deep_time` at the root is the property returning
`wall_time`. -/
def RootState.deepTime (s : RootState) : Rat := s.wallTime

/-! Recording operations on one node, for stating monotonicity of
`deep_time` across an arbitrary operation sequence.  A `leave` whose key
is missing raises; the node state it leaves behind is the unchanged
`Except.error` payload. -/

/-- One recording operation against a single node. -/
inductive NodeOp : Type
  | enter (time : Rat) (frameKey : Nat)
  | leave (time : Rat) (frameKey : Nat)
  deriving Repr, DecidableEq

/-- Apply one operation; a failing `record_leaving` leaves the state as it
was when `KeyError` was raised. -/
def NodeState.applyOp (s : NodeState) : NodeOp → NodeState
  | .enter t k => recordEntering s t k
  | .leave t k =>
      match recordLeaving s t k with
      | .ok s2 => s2
      | .error s2 => s2

/-- Apply a whole operation sequence from the left. -/
def NodeState.applyOps (s : NodeState) (ops : List NodeOp) : NodeState :=
  ops.foldl NodeState.applyOp s

/-! ## Frozen statistics trees and flattening (`profiling/stats.py`)

A `FrozenStatistic` carries `name`, `filename`, `lineno`, `module`,
`own_count`, `deep_time` and a list of frozen children.  `Statistic`'s
derived `own_time` is `max(0, deep_time - sum(child.deep_time))`. -/

/-- A frozen statistic node (`FrozenStatistic._state_slots`). -/
inductive FStat : Type
  | mk (name filename module : Option String) (lineno : Option Int)
      (ownCount : Nat) (deepTime : Rat) (children : List FStat)

def FStat.name : FStat → Option String
  | .mk n _ _ _ _ _ _ => n

def FStat.filename : FStat → Option String
  | .mk _ f _ _ _ _ _ => f

def FStat.module : FStat → Option String
  | .mk _ _ m _ _ _ _ => m

def FStat.lineno : FStat → Option Int
  | .mk _ _ _ l _ _ _ => l

def FStat.ownCount : FStat → Nat
  | .mk _ _ _ _ oc _ _ => oc

def FStat.deepTime : FStat → Rat
  | .mk _ _ _ _ _ dt _ => dt

def FStat.children : FStat → List FStat
  | .mk _ _ _ _ _ _ cs => cs

/-- Python string truthiness: `None` and the empty string are falsy. -/
def truthy : Option String → Bool
  | none => false
  | some s => !s.isEmpty

/-- Python `name or module`. -/
def pyOr (a b : Option String) : Option String :=
  if truthy a then a else b

/-- `Statistic.regular_name`: `module + ":" + name` when both are truthy,
otherwise `name or module`. -/
def regularName (name module : Option String) : Option String :=
  if truthy name && truthy module then
    some (module.getD "" ++ ":" ++ name.getD "")
  else pyOr name module

def FStat.regularName (s : FStat) : Option String :=
  Profiling.regularName s.name s.module

/-- The Call-Site Identity used by `Statistic.__hash__`:
`(name, filename, lineno)`. -/
def FStat.identity (s : FStat) : Option String × Option String × Option Int :=
  (s.name, s.filename, s.lineno)

/-- Sum of the children's stored `deep_time`. -/
def FStat.subTime (s : FStat) : Rat :=
  (s.children.map FStat.deepTime).sum

/-- `Statistic.own_time`: `max(0., deep_time - sum(child.deep_time))`. -/
def FStat.ownTime (s : FStat) : Rat :=
  max 0 (s.deepTime - s.subTime)

/-- A `FlatStatistic` entry: identity fields copied from the first
occurrence, plus the three accumulated attributes
(`own_count`, `deep_time`, `own_time`). -/
structure FlatStat where
  name : Option String
  filename : Option String
  module : Option String
  lineno : Option Int
  ownCount : Nat
  deepTime : Rat
  ownTime : Rat
  deriving Repr, DecidableEq

def FlatStat.identity (f : FlatStat) :
    Option String × Option String × Option Int :=
  (f.name, f.filename, f.lineno)

def FlatStat.regularName (f : FlatStat) : Option String :=
  Profiling.regularName f.name f.module

/-- `FlatStatistic(stat)`: `Statistic.__init__` copies the four identity
fields; the accumulators start at the class defaults `0`. -/
def freshFlat (s : FStat) : FlatStat :=
  ⟨s.name, s.filename, s.module, s.lineno, 0, 0, 0⟩

/-- The attribute loop of `_flatten_stats`: add the statistic's
`own_count`, `deep_time` and (derived) `own_time` onto the entry. -/
def bumpFlat (f : FlatStat) (s : FStat) : FlatStat :=
  { f with ownCount := f.ownCount + s.ownCount,
           deepTime := f.deepTime + s.deepTime,
           ownTime := f.ownTime + s.ownTime }

/-- The registry of `_flatten_stats`: an insertion-ordered dict keyed by
`regular_name`. -/
abbrev Reg := List (Option String × FlatStat)

/-- The registry keys, in insertion order. -/
def regKeys (r : Reg) : List (Option String) := r.map Prod.fst

/-- One loop body of `_flatten_stats` for the statistic `s`: look the
entry up under `stat.regular_name` (creating a fresh `FlatStatistic(stat)`
on `KeyError`), then run the attribute loop. -/
def regAdd (r : Reg) (s : FStat) : Reg :=
  match alookup r s.regularName with
  | some f => astore r s.regularName (bumpFlat f s)
  | none => r ++ [(s.regularName, bumpFlat (freshFlat s) s)]

/-- `FlatStatistics._flatten_stats(stats, registry)`: for each statistic,
update the registry entry, then recurse into the statistic's children,
mutating the same registry. -/
def flattenStats (r : Reg) : List FStat → Reg
  | [] => r
  | .mk n f m l oc dt cs :: ss =>
      flattenStats (flattenStats (regAdd r (.mk n f m l oc dt cs)) cs) ss

/-- All descendant statistics of a forest in the order `_flatten_stats`
first touches them (preorder). -/
def spreadStats : List FStat → List FStat
  | [] => []
  | .mk n f m l oc dt cs :: ss =>
      .mk n f m l oc dt cs :: (spreadStats cs ++ spreadStats ss)

/-! Applying the same `_flatten_stats` code to an already-flat snapshot:
`FlatStatistics` children are `FlatStatistic` objects, which have no
children of their own (`Statistic.__iter__` yields nothing) and whose
`own_time` is the stored attribute. -/

/-- `FlatStatistic(stat)` when `stat` is itself a `FlatStatistic`. -/
def freshOfFlat (f : FlatStat) : FlatStat :=
  ⟨f.name, f.filename, f.module, f.lineno, 0, 0, 0⟩

/-- The attribute loop, reading the stored accumulators of a
`FlatStatistic`. -/
def bumpOfFlat (g f : FlatStat) : FlatStat :=
  { g with ownCount := g.ownCount + f.ownCount,
           deepTime := g.deepTime + f.deepTime,
           ownTime := g.ownTime + f.ownTime }

/-- One loop body of `_flatten_stats` for a `FlatStatistic` input. -/
def regAddFlat (r : Reg) (f : FlatStat) : Reg :=
  match alookup r f.regularName with
  | some g => astore r f.regularName (bumpOfFlat g f)
  | none => r ++ [(f.regularName, bumpOfFlat (freshOfFlat f) f)]

/-- `_flatten_stats` over a list of childless `FlatStatistic` inputs: the
recursion into children is vacuous, leaving a left fold. -/
def flattenFlat (r : Reg) : List FlatStat → Reg
  | [] => r
  | f :: fs => flattenFlat (regAddFlat r f) fs

/-- The accumulated value stored under key `k` (0 when absent), for a
chosen attribute `v` of the flat entries. -/
def vOf {M : Type} [AddCommMonoid M] (v : FlatStat → M) (r : Reg)
    (k : Option String) : M :=
  match alookup r k with
  | some f => v f
  | none => 0

/-- The sum of the attribute `w` over every node of the forest whose
`regular_name` is `k`. -/
def wKey {M : Type} [AddCommMonoid M] (w : FStat → M) (k : Option String)
    (ss : List FStat) : M :=
  (((spreadStats ss).filter (fun s => decide (s.regularName = k))).map w).sum

/-- The registry total of an attribute, summed over all entries. -/
def regTot {M : Type} [AddCommMonoid M] (v : FlatStat → M) (r : Reg) : M :=
  (r.map (fun p => v p.2)).sum

/-- Every registry entry is stored under the `regular_name` of its own
identity fields. -/
def WellKeyed (r : Reg) : Prop :=
  ∀ p ∈ r, p.1 = FlatStat.regularName p.2

/-- Claim C4 as stated: the flattened view keyed by the Call-Site
Identity `(name, filename, lineno)` of `Statistic.__hash__` — each
distinct identity exactly once, each entry summing the occurrences of its
identity, and totals conserved against every node of the tree. -/
def C4Claim (ss : List FStat) : Prop :=
  ((flattenStats [] ss).map (fun p => p.2.identity)).Nodup ∧
  (∀ s ∈ spreadStats ss,
      FStat.identity s ∈ (flattenStats [] ss).map (fun p => p.2.identity)) ∧
  (∀ p ∈ flattenStats [] ss,
      p.2.ownCount = (((spreadStats ss).filter
          (fun s => decide (s.identity = p.2.identity))).map FStat.ownCount).sum ∧
      p.2.deepTime = (((spreadStats ss).filter
          (fun s => decide (s.identity = p.2.identity))).map FStat.deepTime).sum) ∧
  regTot (fun f => f.ownCount) (flattenStats [] ss)
      = ((spreadStats ss).map FStat.ownCount).sum ∧
  regTot (fun f => f.deepTime) (flattenStats [] ss)
      = ((spreadStats ss).map FStat.deepTime).sum

/-! ## Interpreter recursion limit (`sys.getrecursionlimit()`)

`FrozenStatistic._freeze_children` builds `[cls(s) for s in stat]`, where
each `cls(s)` re-enters `_freeze_children` one level deeper, and
`FlatStatistics._flatten_stats` calls itself one level deeper per child
list — both are language-level recursion.  CPython aborts such recursion
with `RecursionError` once the interpreter stack exceeds the recursion
limit (default 1000).  The fueled variants below spend one unit of fuel
per nesting level and return `none` where CPython raises. -/

/-- CPython's default recursion limit. -/
def RECURSION_LIMIT : Nat := 1000

mutual

/-- `FrozenStatistic.__init__`: copy the fields and freeze the children,
one interpreter level deeper. -/
def freezeStat : Nat → FStat → Option FStat
  | 0, _ => none
  | fuel + 1, .mk n f m l oc dt cs =>
      match freezeChildren fuel cs with
      | some fcs => some (.mk n f m l oc dt fcs)
      | none => none

/-- `FrozenStatistic._freeze_children`: `[cls(s) for s in stat]`. -/
def freezeChildren : Nat → List FStat → Option (List FStat)
  | _, [] => some []
  | fuel, s :: ss =>
      match freezeStat fuel s, freezeChildren fuel ss with
      | some fs, some fss => some (fs :: fss)
      | _, _ => none

end

/-- `FlatStatistics._flatten_stats` with the interpreter stack made
explicit: the recursion into a statistic's children runs one level
deeper; iterating the siblings stays on the same level. -/
def flattenStatsF : Nat → Reg → List FStat → Option Reg
  | 0, _, _ => none
  | _ + 1, r, [] => some r
  | fuel + 1, r, .mk n f m l oc dt cs :: ss =>
      match flattenStatsF fuel (regAdd r (.mk n f m l oc dt cs)) cs with
      | some r2 => flattenStatsF (fuel + 1) r2 ss
      | none => none

/-- A linear chain of statistics: `chainStat n` has `n + 1` levels. -/
def chainStat : Nat → FStat
  | 0 => .mk (some "f") (some "a.py") (some "m") (some 1) 1 1 []
  | n + 1 => .mk (some "f") (some "a.py") (some "m") (some 1) 1 1 [chainStat n]

/-! ## Wire protocol (`profiling/remote/__init__.py`)

`pack_msg` writes a 1-byte method (`struct` format `!B`), a 4-byte
big-endian payload size (`!I`), and the pickled payload; `recv_msg` reads
them back.  Pickle is modelled as a self-describing, tag-based recursive
serializer over a universe of Python values (floats as rationals), with
the same explicit recursion-limit fuel: CPython's pickler recurses once
per nesting level and raises `RecursionError` beyond the limit. -/

/-- The Python value universe the payloads live in. -/
inductive PyObj : Type
  | pNone
  | pInt (i : Int)
  | pRat (q : Rat)
  | pStr (s : String)
  | pTuple (items : List PyObj)
  | pList (items : List PyObj)

/-- Message methods (`WELCOME`, `PROFILER`, `RESULT`). -/
def WELCOME : Nat := 0x10

def PROFILER : Nat := 0x11

def RESULT : Nat := 0x12

/-- Self-delimiting encoding of a natural number (pickle's concrete byte
format is an implementation detail; any injective self-describing code
carries the round-trip law). -/
def encNat (n : Nat) : List Nat :=
  List.replicate n 1 ++ [0]

/-- Decode `encNat`. -/
def decNat : List Nat → Option (Nat × List Nat)
  | [] => none
  | 0 :: rest => some (0, rest)
  | (_ + 1) :: rest =>
      match decNat rest with
      | some (n, r2) => some (n + 1, r2)
      | none => none

/-- Sign-and-magnitude integer encoding. -/
def encInt (i : Int) : List Nat :=
  (if i < 0 then 1 else 0) :: encNat i.natAbs

/-- Decode `encInt`. -/
def decInt (bs : List Nat) : Option (Int × List Nat) :=
  match bs with
  | [] => none
  | sign :: rest =>
      match decNat rest with
      | some (n, rest2) =>
          some (if sign = 1 then -(n : Int) else (n : Int), rest2)
      | none => none

/-- Rational (Python float) encoding: numerator then denominator. -/
def encRat (q : Rat) : List Nat :=
  encInt q.num ++ encNat q.den

/-- Decode `encRat`. -/
def decRat (bs : List Nat) : Option (Rat × List Nat) :=
  match decInt bs with
  | some (n, rest) =>
      match decNat rest with
      | some (d, rest2) => some (mkRat n d, rest2)
      | none => none
  | none => none

/-- String encoding: length, then each character's code point. -/
def encStr (s : String) : List Nat :=
  encNat s.toList.length ++ (s.toList.map (fun c => encNat c.toNat)).flatten

/-- Decode a fixed number of characters. -/
def decChars : Nat → List Nat → Option (List Char × List Nat)
  | 0, bs => some ([], bs)
  | count + 1, bs =>
      match decNat bs with
      | some (n, rest) =>
          match decChars count rest with
          | some (cs, rest2) => some (Char.ofNat n :: cs, rest2)
          | none => none
      | none => none

/-- Decode `encStr`. -/
def decStr (bs : List Nat) : Option (String × List Nat) :=
  match decNat bs with
  | some (n, rest) =>
      match decChars n rest with
      | some (cs, rest2) => some (String.mk cs, rest2)
      | none => none
  | none => none

mutual

/-- `pickle.dump`: tag byte plus contents; one fuel unit per nesting
level, `none` where CPython raises `RecursionError`. -/
def dumps : Nat → PyObj → Option (List Nat)
  | 0, _ => none
  | _ + 1, .pNone => some [0]
  | _ + 1, .pInt i => some (1 :: encInt i)
  | _ + 1, .pRat q => some (2 :: encRat q)
  | _ + 1, .pStr s => some (3 :: encStr s)
  | fuel + 1, .pTuple xs =>
      match dumpsList fuel xs with
      | some bs => some (4 :: (encNat xs.length ++ bs))
      | none => none
  | fuel + 1, .pList xs =>
      match dumpsList fuel xs with
      | some bs => some (5 :: (encNat xs.length ++ bs))
      | none => none

/-- Serialize the elements of a container in order (siblings live on the
same interpreter level). -/
def dumpsList : Nat → List PyObj → Option (List Nat)
  | _, [] => some []
  | fuel, x :: xs =>
      match dumps fuel x, dumpsList fuel xs with
      | some b, some bs => some (b ++ bs)
      | _, _ => none

end

mutual

/-- `pickle.loads`: parse one value (the unpickler is recursive too). -/
def loadsObj : Nat → List Nat → Option (PyObj × List Nat)
  | 0, _ => none
  | _ + 1, [] => none
  | fuel + 1, tag :: rest =>
      if tag = 0 then some (.pNone, rest)
      else if tag = 1 then
        match decInt rest with
        | some (i, rest2) => some (.pInt i, rest2)
        | none => none
      else if tag = 2 then
        match decRat rest with
        | some (q, rest2) => some (.pRat q, rest2)
        | none => none
      else if tag = 3 then
        match decStr rest with
        | some (s, rest2) => some (.pStr s, rest2)
        | none => none
      else if tag = 4 then
        match decNat rest with
        | some (n, rest2) =>
            match loadsList fuel n rest2 with
            | some (xs, rest3) => some (.pTuple xs, rest3)
            | none => none
        | none => none
      else if tag = 5 then
        match decNat rest with
        | some (n, rest2) =>
            match loadsList fuel n rest2 with
            | some (xs, rest3) => some (.pList xs, rest3)
            | none => none
        | none => none
      else none

/-- Parse a fixed number of container elements. -/
def loadsList : Nat → Nat → List Nat → Option (List PyObj × List Nat)
  | _, 0, bs => some ([], bs)
  | fuel, count + 1, bs =>
      match loadsObj fuel bs with
      | some (x, rest) =>
          match loadsList fuel count rest with
          | some (xs, rest2) => some (x :: xs, rest2)
          | none => none
      | none => none

end

/-- 4-byte big-endian encoding of the payload size (`struct` `!I`). -/
def be32 (n : Nat) : List Nat :=
  [n / 2 ^ 24 % 256, n / 2 ^ 16 % 256, n / 2 ^ 8 % 256, n % 256]

/-- Big-endian decoding of 4 bytes. -/
def debe32 (bs : List Nat) : Nat :=
  match bs with
  | [b0, b1, b2, b3] => b0 * 2 ^ 24 + b1 * 2 ^ 16 + b2 * 2 ^ 8 + b3
  | _ => 0

/-- `pack_msg(method, msg)`: pickle the payload, then emit
method byte, size, payload.  `struct.pack` rejects a method outside a
byte and a size outside 4 bytes. -/
def packMsg (method : Nat) (p : PyObj) : Option (List Nat) :=
  match dumps RECURSION_LIMIT p with
  | some d =>
      if method < 256 ∧ d.length < 2 ^ 32 then
        some (method :: (be32 d.length ++ d))
      else none
  | none => none

/-- `recv(sock, size)`: exactly `size` bytes or a connection-reset
error. -/
def recvBytes (stream : List Nat) (size : Nat) :
    Option (List Nat × List Nat) :=
  if size ≤ stream.length then some (stream.take size, stream.drop size)
  else none

/-- `recv_msg(sock)`: read the method byte, the 4-byte size, then exactly
`size` payload bytes, and unpickle them (`pickle.loads` ignores trailing
bytes after one complete value). -/
def recvMsg (stream : List Nat) : Option ((Nat × PyObj) × List Nat) :=
  match recvBytes stream 1 with
  | some (mB, r1) =>
      match recvBytes r1 4 with
      | some (sB, r2) =>
          match recvBytes r2 (debe32 sB) with
          | some (d, r3) =>
              match loadsObj RECURSION_LIMIT d with
              | some (p, _) =>
                  match mB with
                  | [m] => some ((m, p), r3)
                  | _ => none
              | none => none
          | none => none
      | none => none
  | none => none

/-- A payload nested `n` levels deep (tuples in tuples). -/
def deepPy : Nat → PyObj
  | 0 => .pNone
  | n + 1 => .pTuple [deepPy n]

/-! ## Consistent recording runs (for the time invariants)

A consistent (single-writer, well-nested, monotone-clock) recording
session is described denotationally: each activation of a call-site is an
interval `[tIn, tOut]` containing the sequential intervals of its
sub-activations.  Replaying such a run through
`record_entering`/`record_leaving` gives each node
`own_count = number of activations` and
`deep_time = sum of max(0, tOut - tIn)`, which is what `Realizes`
states. -/

/-- One completed activation: a call-site entered at `tIn`, left at
`tOut`, with the completed sub-activations in between. -/
inductive Run : Type
  | act (code : Nat) (tIn tOut : Rat) (subs : List Run)

def Run.code : Run → Nat
  | .act c _ _ _ => c

def Run.tIn : Run → Rat
  | .act _ s _ _ => s

def Run.tOut : Run → Rat
  | .act _ _ e _ => e

def Run.subs : Run → List Run
  | .act _ _ _ rs => rs

/-- The `deep_time` contribution `record_leaving` makes for one
activation: `max(0, exit - entry)`. -/
def Run.len (r : Run) : Rat := max 0 (r.tOut - r.tIn)

/-- Total recorded time of a list of activations. -/
def sumLen (rs : List Run) : Rat := (rs.map Run.len).sum

/-- All immediate sub-activations of a list of activations. -/
def subsOf (rs : List Run) : List Run := rs.flatMap Run.subs

/-- The activations belonging to the child node for code `c`. -/
def childRuns (c : Nat) (rs : List Run) : List Run :=
  rs.filter (fun r => decide (r.code = c))

/-- The runs `rs` occur sequentially inside the window `[lo, hi]`. -/
inductive Seq : Rat → Rat → List Run → Prop
  | nil (lo hi : Rat) : lo ≤ hi → Seq lo hi []
  | cons (lo hi : Rat) (r : Run) (rs : List Run) :
      lo ≤ r.tIn → Seq r.tOut hi rs → Seq lo hi (r :: rs)

/-- Well-formed activation: the clock is monotone across it and its
sub-activations run sequentially inside it. -/
inductive Wf : Run → Prop
  | mk (c : Nat) (s e : Rat) (subs : List Run) :
      s ≤ e → Seq s e subs → (∀ r ∈ subs, Wf r) → Wf (.act c s e subs)

/-- A non-root node of the frozen tree: the code object it is keyed by in
its parent's child map, its `own_count` and `deep_time`, and its
children. -/
inductive CNode : Type
  | mk (code : Nat) (ownCount : Nat) (deepTime : Rat) (children : List CNode)

def CNode.code : CNode → Nat
  | .mk c _ _ _ => c

def CNode.ownCount : CNode → Nat
  | .mk _ oc _ _ => oc

def CNode.deepTime : CNode → Rat
  | .mk _ _ dt _ => dt

def CNode.children : CNode → List CNode
  | .mk _ _ _ cs => cs

/-- Sum of the children's stored `deep_time` (`Statistic.own_time`'s
`sub_time`). -/
def CNode.subTime (n : CNode) : Rat :=
  (n.children.map CNode.deepTime).sum

/-- `Statistic.own_time`: `max(0., deep_time - sub_time)`. -/
def CNode.ownTime (n : CNode) : Rat :=
  max 0 (n.deepTime - n.subTime)

/-- The frozen node `n` is what recording the activations `rs` (its own
completed activations) leaves behind: `record_entering` counted one hit
per activation, `record_leaving` accumulated `max(0, tOut - tIn)`, the
child map is keyed by code, and each child is realized by the
sub-activations carrying its code. -/
inductive Realizes : CNode → List Run → Prop
  | mk (c : Nat) (oc : Nat) (dt : Rat) (children : List CNode)
      (rs : List Run) :
      oc = rs.length →
      dt = sumLen rs →
      (children.map CNode.code).Nodup →
      (∀ r ∈ subsOf rs, r.code ∈ children.map CNode.code) →
      (∀ m ∈ children, Realizes m (childRuns m.code (subsOf rs))) →
      Realizes (.mk c oc dt children) rs

/-- `P` holds at every node of the subtree rooted at `n`. -/
inductive AllNodes (P : CNode → Prop) : CNode → Prop
  | mk (n : CNode) : P n → (∀ m ∈ n.children, AllNodes P m) → AllNodes P n

/-- A frozen snapshot with its root: `FrozenStatistics` carries
`cpu_time`, `wall_time` and the frozen children. -/
structure FrozenRootTree where
  cpuTime : Rat
  wallTime : Rat
  children : List CNode

/-- `Statistics.own_time` at the root: `cpu_time`. -/
def FrozenRootTree.rootOwnTime (t : FrozenRootTree) : Rat := t.cpuTime

/-- `Statistics.deep_time` at the root: `wall_time`. -/
def FrozenRootTree.rootDeepTime (t : FrozenRootTree) : Rat := t.wallTime

/-- A consistently frozen snapshot: the root totals come from a matched
`record_starting`/`record_stopping` pair, and every child subtree is
realized by well-formed (well-nested, monotone) completed activations —
i.e. the tree was frozen at a quiescent cycle boundary. -/
def ConsistentFrozen (t : FrozenRootTree) : Prop :=
  (∃ cpuStart wallStart cpuStop wallStop root2,
      recordStopping (recordStarting RootState.init cpuStart wallStart)
          cpuStop wallStop = .ok root2 ∧
      t.cpuTime = root2.cpuTime ∧ t.wallTime = root2.wallTime) ∧
  (∀ c ∈ t.children, ∃ rs, Realizes c rs ∧ ∀ r ∈ rs, Wf r)

/-- The time-invariant property claimed for a single node. -/
def TimeInvariant (m : CNode) : Prop :=
  m.ownTime ≤ m.deepTime ∧ m.subTime ≤ m.deepTime

/-- Claim C2 as stated: every node of a consistently frozen tree,
including the root, has `own_time ≤ deep_time` and
`deep_time ≥ sum of children's deep_time`. -/
def C2Claim : Prop :=
  ∀ t : FrozenRootTree, ConsistentFrozen t →
    (t.rootOwnTime ≤ t.rootDeepTime ∧
      (t.children.map CNode.deepTime).sum ≤ t.rootDeepTime) ∧
    ∀ c ∈ t.children, AllNodes TimeInvariant c

/-! ## Broadcast server (`ProfilingServer.profiling`, `connected`,
`disconnected`)

The broadcast loop sends the packed result to every client inside
`try/except socket.error`: every `socket.error` is caught, so the loop
always continues to the next client; the handler appends the client to
`closed_clients` only when the errno is `EPIPE`, and those clients are
disconnected after the loop.  A failure with any other errno is
swallowed without collecting the client. -/

/-- `errno.EPIPE` (Linux). -/
def EPIPE : Int := 32

/-- `errno.ECONNRESET` (Linux). -/
def ECONNRESET : Int := 104

/-- Observable actions of one broadcast cycle, in program order. -/
inductive BAction : Type
  | sendOk (client : Nat)
  | sendFail (client : Nat) (errno : Int)
  | disconnect (client : Nat)
  deriving Repr, DecidableEq

/-- The `for client in self.clients` send loop: returns the action trace
and the collected `closed_clients`.  `except socket.error` catches every
send failure (the loop never aborts); only an `EPIPE` failure appends
the client to `closed_clients`. -/
def broadcastLoop (send : Nat → Option Int) :
    List Nat → List BAction × List Nat
  | [] => ([], [])
  | c :: cs =>
      let rest := broadcastLoop send cs
      match send c with
      | none => (.sendOk c :: rest.1, rest.2)
      | some e =>
          if e = EPIPE then (.sendFail c e :: rest.1, c :: rest.2)
          else (.sendFail c e :: rest.1, rest.2)

/-- One broadcast cycle: the send loop, then the
`for client in closed_clients: self.disconnected(client)` loop. -/
def broadcastCycle (send : Nat → Option Int) (clients : List Nat) :
    List BAction :=
  (broadcastLoop send clients).1 ++
    (broadcastLoop send clients).2.map .disconnect

/-- Claim C6 as stated, for one cycle: every client whose send does not
fail gets the frame exactly once, failures never prevent later
deliveries, and the failed connections are collected and disconnected
after the loop finishes. -/
def C6Claim (send : Nat → Option Int) (clients : List Nat) : Prop :=
  (∀ c ∈ clients, send c = none →
      ((broadcastCycle send clients).count (.sendOk c) = 1)) ∧
  (∀ c ∈ clients, (send c).isSome →
      (.disconnect c) ∈ broadcastCycle send clients)

/-! ## Measurement-cycle gating (`ProfilingServer.connected` /
`disconnected` / the `profiling` loop)

`connected` adds the client and calls `_start_profiling()` exactly when
the set size just became 1; the `profiling` generator loop keeps running
while `self.clients` is non-empty and exits (once) when it next resumes
with no clients left.  Sends are modelled as succeeding; events are
processed sequentially. -/

/-- Controller state: the connected clients, whether the profiling loop
is live, and counters of loop starts/stops. -/
structure SrvState where
  clients : List Nat
  loopActive : Bool
  starts : Nat
  stops : Nat
  deriving Repr, DecidableEq

def SrvState.init : SrvState := ⟨[], false, 0, 0⟩

/-- `connected(client)`: `self.clients.add(client)` then
`if len(self.clients) == 1: self._start_profiling()`. -/
def connectedEv (s : SrvState) (c : Nat) : SrvState :=
  let cl := if c ∈ s.clients then s.clients else s.clients ++ [c]
  if cl.length = 1 then
    { s with clients := cl, loopActive := true, starts := s.starts + 1 }
  else { s with clients := cl }

/-- `disconnected(client)`: remove the client if still present. -/
def disconnectedEv (s : SrvState) (c : Nat) : SrvState :=
  if c ∈ s.clients then { s with clients := s.clients.erase c } else s

/-- The profiling generator resuming: with clients left it runs another
cycle; with none left the `while self.clients` loop exits and the
profiler is stopped for good. -/
def resumeEv (s : SrvState) : SrvState :=
  if s.loopActive then
    if s.clients.isEmpty then
      { s with loopActive := false, stops := s.stops + 1 }
    else s
  else s

/-- A serialized event against the server. -/
inductive SrvEv : Type
  | conn (c : Nat)
  | disc (c : Nat)
  | resume
  deriving Repr, DecidableEq

def SrvState.step (s : SrvState) : SrvEv → SrvState
  | .conn c => connectedEv s c
  | .disc c => disconnectedEv s c
  | .resume => resumeEv s

def SrvState.run (s : SrvState) (evs : List SrvEv) : SrvState :=
  evs.foldl SrvState.step s

/-! ## Failover client (`FailoverProfilingClient`) -/

/-- `errno.ENOENT` (Linux). -/
def ENOENT : Int := 2

/-- `errno.EINPROGRESS` (Linux). -/
def EINPROGRESS : Int := 115

/-- `errno.ECONNREFUSED` (Linux). -/
def ECONNREFUSED : Int := 111

/-- `FailoverProfilingClient.failover_interval` (seconds). -/
def failoverInterval : Rat := 1

/-- The outcome of one `connect()` call. -/
inductive ConnectOutcome : Type
  | watchFile
  | retryAfter (delay : Rat)
  | fatalErr (errno : Int)
  deriving Repr, DecidableEq

/-- `FailoverProfilingClient.connect()`: classify the result of
`sock.connect_ex(addr)`.  `0` and `EINPROGRESS` proceed to watch the
socket; `ENOENT` schedules a reconnect after `failover_interval`; any
other errno raises `ValueError`. -/
def connectClassify (errno : Int) : ConnectOutcome :=
  if errno = 0 then .watchFile
  else if errno = EINPROGRESS then .watchFile
  else if errno = ENOENT then .retryAfter failoverInterval
  else .fatalErr errno

/-- `FailoverProfilingClient.disconnect(errno)`: close and schedule the
reconnect, delayed by `failover_interval` only for `ECONNREFUSED`. -/
def disconnectDelay (errno : Int) : Rat :=
  if errno = ECONNREFUSED then failoverInterval else 0

/-- Claim C8 as stated: classification happens on the failed connect
attempt itself, with refused and not-yet-existing endpoints both backed
off, in-progress treated as pending success, and everything else
fatal. -/
def C8Claim : Prop :=
  connectClassify ECONNREFUSED = .retryAfter failoverInterval ∧
  connectClassify ENOENT = .retryAfter failoverInterval ∧
  connectClassify EINPROGRESS = .watchFile ∧
  ∀ e : Int, e ≠ 0 → e ≠ EINPROGRESS → e ≠ ENOENT → e ≠ ECONNREFUSED →
    connectClassify e = .fatalErr e

/-! ### Association-list lemmas -/

theorem alookup_append {α β : Type} [DecidableEq α] (l1 l2 : List (α × β))
    (k : α) :
    alookup (l1 ++ l2) k =
      match alookup l1 k with
      | some v => some v
      | none => alookup l2 k := by
  induction l1 with
  | nil => simp [alookup]
  | cons p rest ih =>
      obtain ⟨k0, v0⟩ := p
      by_cases h : k0 = k <;> simp [alookup, h, ih]

theorem alookup_astore {α β : Type} [DecidableEq α] (l : List (α × β))
    (key k : α) (v : β) :
    alookup (astore l key v) k = if key = k then some v else alookup l k := by
  induction l with
  | nil => by_cases h : key = k <;> simp [astore, alookup, h]
  | cons p rest ih =>
      obtain ⟨k0, v0⟩ := p
      by_cases h0 : k0 = key
      · subst h0
        by_cases h : k0 = k <;> simp [astore, alookup, h]
      · by_cases h : k0 = k
        · subst h
          have : ¬ key = k0 := fun hc => h0 hc.symm
          simp [astore, alookup, h0, this]
        · simp [astore, alookup, h0, h, ih]

theorem alookup_mem {α β : Type} [DecidableEq α] (l : List (α × β)) (k : α)
    (v : β) (h : alookup l k = some v) : (k, v) ∈ l := by
  induction l with
  | nil => simp [alookup] at h
  | cons p rest ih =>
      obtain ⟨k0, v0⟩ := p
      by_cases h0 : k0 = k
      · subst h0
        simp [alookup] at h
        simp [h]
      · simp [alookup, h0] at h
        exact List.mem_cons_of_mem _ (ih h)

theorem mem_alookup_of_nodup {α β : Type} [DecidableEq α]
    (l : List (α × β)) (k : α) (v : β) (hnd : (l.map Prod.fst).Nodup)
    (hmem : (k, v) ∈ l) : alookup l k = some v := by
  induction l with
  | nil => simp at hmem
  | cons p rest ih =>
      obtain ⟨k0, v0⟩ := p
      simp only [List.map_cons, List.nodup_cons] at hnd
      rcases List.mem_cons.mp hmem with heq | htail
      · rw [Prod.mk.injEq] at heq
        obtain ⟨hk, hv⟩ := heq
        subst hk
        subst hv
        simp [alookup]
      · have hk0 : k0 ≠ k := by
          intro he
          exact hnd.1 (he ▸ (List.mem_map.mpr ⟨(k, v), htail, rfl⟩))
        simp [alookup, hk0, ih hnd.2 htail]

theorem keys_astore {α β : Type} [DecidableEq α] (l : List (α × β))
    (key : α) (v : β) (h : (alookup l key).isSome) :
    (astore l key v).map Prod.fst = l.map Prod.fst := by
  induction l with
  | nil => simp [alookup] at h
  | cons p rest ih =>
      obtain ⟨k0, v0⟩ := p
      by_cases h0 : k0 = key
      · simp [astore, h0]
      · simp [alookup, h0] at h
        simp [astore, h0, ih h]

theorem alookup_isSome_iff {α β : Type} [DecidableEq α]
    (l : List (α × β)) (k : α) :
    (alookup l k).isSome ↔ k ∈ l.map Prod.fst := by
  induction l with
  | nil => simp [alookup]
  | cons p rest ih =>
      obtain ⟨k0, v0⟩ := p
      by_cases h0 : k0 = k
      · simp [alookup, h0]
      · have h0s : ¬ k = k0 := fun he => h0 he.symm
        simp [alookup, h0, h0s, ih]

/-! ### Generic registry-value lemmas

`_flatten_stats` accumulates three attributes; the lemmas are proved once,
parameterised over the attribute being tracked. -/

section RegValue

variable {M : Type} [AddCommMonoid M] (v : FlatStat → M) (w : FStat → M)

theorem vOf_regAdd (hbump : ∀ f s, v (bumpFlat f s) = v f + w s)
    (hfresh : ∀ s, v (freshFlat s) = 0)
    (r : Reg) (s : FStat) (k : Option String) :
    vOf v (regAdd r s) k =
      vOf v r k + (if s.regularName = k then w s else 0) := by
  unfold regAdd
  cases hl : alookup r s.regularName with
  | some f =>
      by_cases hk : s.regularName = k
      · subst hk
        simp [vOf, alookup_astore, hl, hbump]
      · simp [vOf, alookup_astore, hk]
  | none =>
      by_cases hk : s.regularName = k
      · subst hk
        simp [vOf, alookup_append, hl, hbump, hfresh, alookup]
      · simp only [vOf, alookup_append]
        cases hrk : alookup r k with
        | some g => simp [hk]
        | none => simp [alookup, hk]

theorem vOf_flattenStats (hbump : ∀ f s, v (bumpFlat f s) = v f + w s)
    (hfresh : ∀ s, v (freshFlat s) = 0)
    (k : Option String) (r : Reg) (ss : List FStat) :
    vOf v (flattenStats r ss) k = vOf v r k + wKey w k ss := by
  induction r, ss using flattenStats.induct with
  | case1 r => simp [flattenStats, wKey, spreadStats]
  | case2 r n f m l oc dt cs ss ih1 ih2 =>
      simp only [flattenStats] at ih2 ⊢
      rw [ih2, ih1, vOf_regAdd v w hbump hfresh]
      simp only [wKey, spreadStats, List.filter_cons, List.filter_append,
        List.map_append, List.sum_append]
      by_cases hk : FStat.regularName (.mk n f m l oc dt cs) = k
      · simp [hk]
        abel
      · simp [hk]
        abel

end RegValue

/-! ### Registry key lemmas -/

theorem regKeys_regAdd (r : Reg) (s : FStat) :
    regKeys (regAdd r s) =
      if s.regularName ∈ regKeys r then regKeys r
      else regKeys r ++ [s.regularName] := by
  unfold regAdd regKeys
  cases hl : alookup r s.regularName with
  | some f =>
      have hs : (alookup r s.regularName).isSome := by simp [hl]
      have hmem : s.regularName ∈ r.map Prod.fst := (alookup_isSome_iff r _).mp hs
      rw [keys_astore _ _ _ hs, if_pos hmem]
  | none =>
      have hnm : ¬ s.regularName ∈ r.map Prod.fst := by
        rw [← alookup_isSome_iff r]
        simp [hl]
      rw [if_neg hnm]
      simp

theorem regKeys_flattenStats_nodup (r : Reg) (ss : List FStat) :
    (regKeys r).Nodup → (regKeys (flattenStats r ss)).Nodup := by
  induction r, ss using flattenStats.induct with
  | case1 r =>
      intro h
      simpa [flattenStats]
  | case2 r n f m l oc dt cs ss ih1 ih2 =>
      intro h
      simp only [flattenStats]
      apply ih2
      apply ih1
      rw [regKeys_regAdd]
      by_cases hmem : FStat.regularName (.mk n f m l oc dt cs) ∈ regKeys r
      · rwa [if_pos hmem]
      · rw [if_neg hmem, List.nodup_append]
        refine ⟨h, List.nodup_singleton _, ?_⟩
        intro a ha hc
        rw [List.mem_singleton] at hc
        exact hmem (hc ▸ ha)

theorem mem_regKeys_regAdd (r : Reg) (s : FStat) (k : Option String) :
    k ∈ regKeys (regAdd r s) ↔ k ∈ regKeys r ∨ k = s.regularName := by
  rw [regKeys_regAdd]
  by_cases hmem : s.regularName ∈ regKeys r
  · rw [if_pos hmem]
    constructor
    · exact Or.inl
    · rintro (h | h)
      · exact h
      · exact h ▸ hmem
  · rw [if_neg hmem]
    simp

theorem mem_regKeys_flattenStats (r : Reg) (ss : List FStat)
    (k : Option String) :
    k ∈ regKeys (flattenStats r ss) ↔
      k ∈ regKeys r ∨ k ∈ (spreadStats ss).map FStat.regularName := by
  induction r, ss using flattenStats.induct with
  | case1 r => simp [flattenStats, spreadStats]
  | case2 r n f m l oc dt cs ss ih1 ih2 =>
      simp only [flattenStats] at ih2 ⊢
      rw [ih2, ih1, mem_regKeys_regAdd]
      simp only [spreadStats, List.map_cons, List.map_append, List.mem_cons,
        List.mem_append]
      tauto

theorem vOf_entry {M : Type} [AddCommMonoid M] (v : FlatStat → M) (r : Reg)
    (k : Option String) (f : FlatStat) (hnd : (regKeys r).Nodup)
    (hmem : (k, f) ∈ r) : vOf v r k = v f := by
  unfold vOf
  rw [mem_alookup_of_nodup r k f hnd hmem]

/-! ### Partition of a sum over distinct keys -/

theorem sum_ite_eq_of_not_mem {β M : Type} [DecidableEq β] [AddCommMonoid M]
    (cs : List β) (x : β) (y : M) (hx : x ∉ cs) :
    (cs.map (fun c => if x = c then y else 0)).sum = 0 := by
  induction cs with
  | nil => simp
  | cons c0 rest ih =>
      simp only [List.mem_cons, not_or] at hx
      simp [hx.1, ih hx.2]

theorem sum_ite_eq_mem {β M : Type} [DecidableEq β] [AddCommMonoid M]
    (cs : List β) (hnd : cs.Nodup) (x : β) (y : M) :
    (cs.map (fun c => if x = c then y else 0)).sum =
      if x ∈ cs then y else 0 := by
  induction cs with
  | nil => simp
  | cons c0 rest ih =>
      rw [List.nodup_cons] at hnd
      by_cases hx : x = c0
      · subst hx
        simp [sum_ite_eq_of_not_mem rest x y hnd.1]
      · simp [hx, ih hnd.2]

theorem sum_filter_partition {α β M : Type} [DecidableEq β] [AddCommMonoid M]
    (f : α → β) (g : α → M) (l : List α) (cs : List β) (hnd : cs.Nodup)
    (hcov : ∀ a ∈ l, f a ∈ cs) :
    (cs.map (fun c => ((l.filter (fun a => decide (f a = c))).map g).sum)).sum
      = (l.map g).sum := by
  induction l with
  | nil => simp
  | cons a l ih =>
      have step : ∀ c : β,
          (((a :: l).filter (fun x => decide (f x = c))).map g).sum =
            (if f a = c then g a else 0) +
              ((l.filter (fun x => decide (f x = c))).map g).sum := by
        intro c
        by_cases hc : f a = c <;> simp [List.filter_cons, hc]
      calc (cs.map (fun c =>
              (((a :: l).filter (fun x => decide (f x = c))).map g).sum)).sum
          = (cs.map (fun c => (if f a = c then g a else 0) +
              ((l.filter (fun x => decide (f x = c))).map g).sum)).sum := by
            exact congrArg List.sum (List.map_congr_left (fun c _ => step c))
        _ = (cs.map (fun c => if f a = c then g a else 0)).sum +
              (cs.map (fun c =>
                ((l.filter (fun x => decide (f x = c))).map g).sum)).sum := by
            rw [← List.sum_map_add]
        _ = g a + (l.map g).sum := by
            rw [sum_ite_eq_mem cs hnd, if_pos (hcov a (List.mem_cons_self a l)),
              ih (fun x hx => hcov x (List.mem_cons_of_mem a hx))]
        _ = ((a :: l).map g).sum := by simp

theorem regTot_eq_sum_keys {M : Type} [AddCommMonoid M] (v : FlatStat → M)
    (r : Reg) (hnd : (regKeys r).Nodup) :
    regTot v r = ((regKeys r).map (fun k => vOf v r k)).sum := by
  induction r with
  | nil => simp [regTot, regKeys]
  | cons p rest ih =>
      obtain ⟨k0, f0⟩ := p
      simp only [regKeys, List.map_cons, List.nodup_cons] at hnd
      have h0 : vOf v ((k0, f0) :: rest) k0 = v f0 := by
        simp [vOf, alookup]
      have hrest : ∀ k ∈ regKeys rest,
          vOf v ((k0, f0) :: rest) k = vOf v rest k := by
        intro k hk
        have hne : k0 ≠ k := fun he => hnd.1 (he ▸ hk)
        simp [vOf, alookup, hne]
      have hmap : List.map (fun k => vOf v ((k0, f0) :: rest) k)
            (List.map Prod.fst rest) =
          List.map (fun k => vOf v rest k) (List.map Prod.fst rest) :=
        List.map_congr_left (fun k hk => hrest k hk)
      have ih2 := ih hnd.2
      simp only [regTot, regKeys, List.map_cons, List.sum_cons] at ih2 ⊢
      rw [h0, hmap, ← ih2]

/-! ### Well-keyed registries and re-flattening -/

theorem regularName_bumpFlat (f : FlatStat) (s : FStat) :
    (bumpFlat f s).regularName = f.regularName := rfl

theorem regularName_freshFlat (s : FStat) :
    (freshFlat s).regularName = s.regularName := rfl

theorem wellKeyed_astore (r : Reg) (key : Option String) (g : FlatStat)
    (h : WellKeyed r) (hg : key = g.regularName) :
    WellKeyed (astore r key g) := by
  induction r with
  | nil =>
      intro p hp
      simp [astore] at hp
      simp [hp, hg]
  | cons q rest ih =>
      obtain ⟨k0, v0⟩ := q
      by_cases h0 : k0 = key
      · subst h0
        intro p hp
        simp only [astore, if_pos rfl] at hp
        rcases List.mem_cons.mp hp with he | ht
        · simp [he, hg]
        · exact h p (List.mem_cons_of_mem _ ht)
      · intro p hp
        simp only [astore, if_neg h0] at hp
        rcases List.mem_cons.mp hp with he | ht
        · exact he ▸ h (k0, v0) (List.mem_cons_self _ _)
        · exact ih (fun q hq => h q (List.mem_cons_of_mem _ hq)) p ht

theorem wellKeyed_regAdd (r : Reg) (s : FStat) (h : WellKeyed r) :
    WellKeyed (regAdd r s) := by
  unfold regAdd
  cases hl : alookup r s.regularName with
  | some f =>
      have hent : (s.regularName, f) ∈ r := alookup_mem r _ f hl
      have hkey : s.regularName = f.regularName := h _ hent
      exact wellKeyed_astore r _ _ h (by rw [regularName_bumpFlat]; exact hkey)
  | none =>
      intro p hp
      rcases List.mem_append.mp hp with ht | hnew
      · exact h p ht
      · rw [List.mem_singleton] at hnew
        subst hnew
        simp [regularName_bumpFlat, regularName_freshFlat]

theorem wellKeyed_flattenStats (r : Reg) (ss : List FStat) :
    WellKeyed r → WellKeyed (flattenStats r ss) := by
  induction r, ss using flattenStats.induct with
  | case1 r => exact fun h => by simpa [flattenStats]
  | case2 r n f m l oc dt cs ss ih1 ih2 =>
      intro h
      simp only [flattenStats]
      exact ih2 (ih1 (wellKeyed_regAdd r _ h))

theorem bumpOfFlat_freshOfFlat (f : FlatStat) :
    bumpOfFlat (freshOfFlat f) f = f := by
  obtain ⟨n, fn, m, l, oc, dt, ot⟩ := f
  simp [bumpOfFlat, freshOfFlat]

theorem regularName_freshOfFlat (f : FlatStat) :
    (freshOfFlat f).regularName = f.regularName := rfl

theorem flattenFlat_fresh_keys (vals : Reg) :
    ∀ acc : Reg, WellKeyed vals → (regKeys vals).Nodup →
    (∀ k ∈ regKeys vals, alookup acc k = none) →
    flattenFlat acc (vals.map Prod.snd) = acc ++ vals := by
  induction vals with
  | nil =>
      intro acc _ _ _
      simp [flattenFlat]
  | cons p rest ih =>
      intro acc hwk hnd hfree
      obtain ⟨k, f⟩ := p
      have hk : k = f.regularName := hwk (k, f) (List.mem_cons_self _ _)
      simp only [regKeys, List.map_cons, List.nodup_cons] at hnd
      have hlook : alookup acc f.regularName = none := by
        rw [← hk]
        exact hfree k (List.mem_cons_self _ _)
      simp only [List.map_cons, flattenFlat]
      have hstep : regAddFlat acc f = acc ++ [(k, f)] := by
        unfold regAddFlat
        rw [hlook, bumpOfFlat_freshOfFlat, hk]
      rw [hstep]
      have hwk2 : WellKeyed rest :=
        fun q hq => hwk q (List.mem_cons_of_mem _ hq)
      have hfree2 : ∀ k2 ∈ regKeys rest, alookup (acc ++ [(k, f)]) k2 = none := by
        intro k2 hk2
        have hne : k ≠ k2 := fun he => hnd.1 (he ▸ hk2)
        rw [alookup_append]
        rw [hfree k2 (List.mem_cons_of_mem _ hk2)]
        simp [alookup, hne]
      rw [ih (acc ++ [(k, f)]) hwk2 hnd.2 hfree2, List.append_assoc]
      rfl

/-! ## Claim C1 -/

/-- C1 (counterexample): the claim says `record_leaving` on a statistics
node with an unmatched activation key raises no error; but
`RecordingStatistic.record_leaving` pops `_times_entered[frame_key]`
without a default, so on the node itself the call raises `KeyError`
(shown here at a fresh node with an empty pending table). -/
theorem record_leaving_missing_entry_raises :
    ¬ (∀ (s : NodeState) (t : Rat) (k : Nat),
        alookup s.timesEntered k = none → recordLeaving s t k = .ok s) := by
  intro h
  have hc := h ⟨0, 0, []⟩ 5 1 rfl
  simp [recordLeaving, alookup] at hc

/-- C1 (amended): a `record_leaving` with no matching `record_entering`
raises `KeyError` at the statistics node, leaving the node unchanged
(the `Except.error` payload is the state at the raise); the tracing
profiler's `record_leaving` wraps both lookups in `try/except KeyError`,
so at the profiler level the call is a total no-op that leaves the
pending-entry table and the children's `own_hits`/`deep_time`
unchanged. -/
theorem record_leaving_missing_entry_noop :
    (∀ (s : NodeState) (t : Rat) (k : Nat),
        alookup s.timesEntered k = none → recordLeaving s t k = .error s) ∧
    (∀ (t : Rat) (code key : Nat) (te : List ((Nat × Nat) × Rat))
        (ch : List (Nat × ChildStat)),
        alookup te (code, key) = none ∨ alookup ch code = none →
        profilerRecordLeaving t code key te ch = (te, ch)) := by
  constructor
  · intro s t k h
    simp [recordLeaving, h]
  · intro t code key te ch h
    unfold profilerRecordLeaving
    cases hc : alookup ch code with
    | none => rfl
    | some stats =>
        rcases h with h | h
        · rw [h]
        · rw [hc] at h
          exact absurd h (by simp)

/-- C1 (witness): the amended behaviour at concrete inputs — a fresh
node raises (state preserved in the error), and the profiler-level call
with an empty pending table is an identity. -/
theorem record_leaving_missing_entry_noop_witness :
    recordLeaving ⟨0, 0, []⟩ 5 1 = .error ⟨0, 0, []⟩ ∧
    profilerRecordLeaving 5 7 1 [] [(7, ⟨3, 2⟩)] = ([], [(7, ⟨3, 2⟩)]) :=
  ⟨record_leaving_missing_entry_noop.1 ⟨0, 0, []⟩ 5 1 rfl,
   record_leaving_missing_entry_noop.2 5 7 1 [] [(7, ⟨3, 2⟩)]
     (Or.inl rfl)⟩

/-! ## Claim C10 -/

theorem applyOps_deepTime_mono (ops : List NodeOp) :
    ∀ s : NodeState, s.deepTime ≤ (s.applyOps ops).deepTime := by
  induction ops with
  | nil => intro s; exact le_refl _
  | cons op ops ih =>
      intro s
      have h1 : s.deepTime ≤ (s.applyOp op).deepTime := by
        cases op with
        | enter t k => exact le_refl _
        | leave t k =>
            simp only [NodeState.applyOp, recordLeaving]
            cases hl : alookup s.timesEntered k with
            | none => simp
            | some te =>
                simp only []
                have hmx : (0 : Rat) ≤ max 0 (t - te) := le_max_left 0 _
                linarith
      exact le_trans h1 (ih (s.applyOp op))

/-- C10: every recorded duration is clamped at zero before accumulation —
`record_leaving` adds `max(0, exit - entry)` to `deep_time` and
`record_stopping` sets `cpu_time`/`wall_time` to `max(0, elapsed)` — so
`deep_time` never decreases across recording operations, stays
nonnegative from a fresh node, and the stop totals are nonnegative, even
for non-monotonic timestamps. -/
theorem clamped_time_accumulation :
    (∀ (s : NodeState) (op : NodeOp), s.deepTime ≤ (s.applyOp op).deepTime) ∧
    (∀ ops : List NodeOp, 0 ≤ (NodeState.init.applyOps ops).deepTime) ∧
    (∀ (r : RootState) (t w : Rat) (r2 : RootState),
        recordStopping r t w = .ok r2 → 0 ≤ r2.cpuTime ∧ 0 ≤ r2.wallTime) := by
  refine ⟨?_, ?_, ?_⟩
  · intro s op
    exact le_trans (le_refl _) (applyOps_deepTime_mono [op] s)
  · intro ops
    have h0 : (NodeState.init).deepTime = 0 := rfl
    have := applyOps_deepTime_mono ops NodeState.init
    rw [h0] at this
    exact this
  · intro r t w r2 h
    unfold recordStopping at h
    cases hc : r.cpuTimeStarted with
    | none => rw [hc] at h; exact absurd h (by simp)
    | some cs =>
        cases hw : r.wallTimeStarted with
        | none => rw [hc, hw] at h; exact absurd h (by simp)
        | some ws =>
            rw [hc, hw] at h
            simp only [Except.ok.injEq] at h
            subst h
            exact ⟨le_max_left 0 _, le_max_left 0 _⟩

/-- C10 (witness): stopping a started root with a clock that went
backwards (cpu elapsed `-3`, wall elapsed `-2`) still yields nonnegative
totals. -/
theorem clamped_time_accumulation_witness :
    recordStopping ⟨0, 0, some 4, some 4⟩ 1 2 = .ok ⟨0, 0, none, none⟩ ∧
    (0 : Rat) ≤ (⟨0, 0, none, none⟩ : RootState).cpuTime ∧
    (0 : Rat) ≤ (⟨0, 0, none, none⟩ : RootState).wallTime := by
  have hstop : recordStopping ⟨0, 0, some 4, some 4⟩ 1 2 =
      .ok ⟨0, 0, none, none⟩ := by
    unfold recordStopping
    norm_num [max_def]
  exact ⟨hstop,
    clamped_time_accumulation.2.2 ⟨0, 0, some 4, some 4⟩ 1 2 _ hstop⟩

/-! ## Claim C8 -/

/-- C8 (counterexample): the claim says a connect attempt failing with
`ECONNREFUSED` backs off and retries; but `connect()` only classifies
`0`, `EINPROGRESS` and `ENOENT` — `connect_ex` returning `ECONNREFUSED`
falls into the `else` branch and raises `ValueError`. -/
theorem connect_refused_is_fatal : ¬ C8Claim := by
  intro h
  exact absurd h.1 (by decide)

/-- C8 (amended): at connect time, `0` and `EINPROGRESS` proceed to
watch the socket, `ENOENT` retries after the backoff interval, and every
other errno — `ECONNREFUSED` included — raises `ValueError`; the
refused-connection backoff lives on the disconnect path instead, where
`disconnect(errno)` delays the reconnect by `failover_interval` exactly
for `ECONNREFUSED` and reconnects immediately for every other errno. -/
theorem connect_error_classification :
    connectClassify 0 = .watchFile ∧
    connectClassify EINPROGRESS = .watchFile ∧
    connectClassify ENOENT = .retryAfter failoverInterval ∧
    (∀ e : Int, e ≠ 0 → e ≠ EINPROGRESS → e ≠ ENOENT →
        connectClassify e = .fatalErr e) ∧
    disconnectDelay ECONNREFUSED = failoverInterval ∧
    (∀ e : Int, e ≠ ECONNREFUSED → disconnectDelay e = 0) := by
  refine ⟨by decide, by decide, by decide, ?_, by decide, ?_⟩
  · intro e h0 h1 h2
    unfold connectClassify
    rw [if_neg h0, if_neg h1, if_neg h2]
  · intro e he
    unfold disconnectDelay
    rw [if_neg he]

/-- C8 (witness): `ECONNREFUSED` at connect time is fatal, and on the
disconnect path `EPIPE` reconnects immediately. -/
theorem connect_error_classification_witness :
    connectClassify ECONNREFUSED = .fatalErr ECONNREFUSED ∧
    disconnectDelay EPIPE = 0 :=
  ⟨connect_error_classification.2.2.2.1 ECONNREFUSED (by decide) (by decide)
     (by decide),
   connect_error_classification.2.2.2.2.2 EPIPE (by decide)⟩

/-! ## Claim C2 -/

theorem Wf.le {r : Run} (h : Wf r) : r.tIn ≤ r.tOut := by
  cases h with
  | mk c s e subs h1 h2 h3 => exact h1

theorem Wf.seq {r : Run} (h : Wf r) : Seq r.tIn r.tOut r.subs := by
  cases h with
  | mk c s e subs h1 h2 h3 => exact h2

theorem Wf.subs_wf {r : Run} (h : Wf r) : ∀ x ∈ r.subs, Wf x := by
  cases h with
  | mk c s e subs h1 h2 h3 => exact h3

theorem sumLen_nonneg (rs : List Run) : 0 ≤ sumLen rs := by
  apply List.sum_nonneg
  intro x hx
  rcases List.mem_map.mp hx with ⟨r, _, hr⟩
  rw [← hr]
  exact le_max_left 0 _

theorem seq_sumLen : ∀ (lo hi : Rat) (rs : List Run), Seq lo hi rs →
    (∀ r ∈ rs, r.tIn ≤ r.tOut) → sumLen rs ≤ hi - lo := by
  intro lo hi rs hs
  induction hs with
  | nil lo hi h =>
      intro _
      simp only [sumLen, List.map_nil, List.sum_nil]
      linarith
  | cons lo hi r rs h1 h2 ih =>
      intro hwf
      have hr : r.tIn ≤ r.tOut := hwf r (List.mem_cons_self r rs)
      have hlen : Run.len r = r.tOut - r.tIn := by
        rw [Run.len]
        exact max_eq_right (by linarith)
      have ih2 := ih (fun x hx => hwf x (List.mem_cons_of_mem r hx))
      simp only [sumLen, List.map_cons, List.sum_cons] at ih2 ⊢
      rw [hlen]
      linarith

theorem wf_sumLen_subs (r : Run) (h : Wf r) : sumLen r.subs ≤ Run.len r := by
  have h1 := seq_sumLen r.tIn r.tOut r.subs (Wf.seq h)
    (fun x hx => Wf.le (Wf.subs_wf h x hx))
  have h2 : Run.len r = r.tOut - r.tIn := by
    rw [Run.len]
    exact max_eq_right (by linarith [Wf.le h])
  linarith

theorem sumLen_subsOf (rs : List Run) (h : ∀ r ∈ rs, Wf r) :
    sumLen (subsOf rs) ≤ sumLen rs := by
  induction rs with
  | nil => simp [sumLen, subsOf]
  | cons r rs ih =>
      have h1 := wf_sumLen_subs r (h r (List.mem_cons_self r rs))
      have h2 := ih (fun x hx => h x (List.mem_cons_of_mem r hx))
      simp only [subsOf, List.flatMap_cons, sumLen, List.map_append,
        List.sum_append, List.map_cons, List.sum_cons] at h1 h2 ⊢
      linarith

theorem wf_subsOf (rs : List Run) (h : ∀ r ∈ rs, Wf r) :
    ∀ x ∈ subsOf rs, Wf x := by
  intro x hx
  rcases List.mem_flatMap.mp hx with ⟨r, hr, hxr⟩
  exact Wf.subs_wf (h r hr) x hxr

theorem Realizes.deepTime_eq {m : CNode} {rsx : List Run}
    (h : Realizes m rsx) : m.deepTime = sumLen rsx := by
  cases h with
  | mk c oc dt children rs h1 h2 h3 h4 h5 =>
      simpa [CNode.deepTime] using h2

/-- C2 (amended): for every non-root node of a tree frozen at a
quiescent boundary of a well-nested, monotone-clock recording session
(`Realizes`/`Wf`), the whole subtree satisfies
`own_time ≤ deep_time` and `Σ child.deep_time ≤ deep_time`.  The root is
excluded: its `own_time`/`deep_time` are the independently measured
`cpu_time`/`wall_time` totals (see the counterexample). -/
theorem consistent_tree_time_invariant :
    ∀ (n : CNode) (rs : List Run), Realizes n rs →
      (∀ r ∈ rs, Wf r) → AllNodes TimeInvariant n := by
  intro n rs hR
  induction hR with
  | mk c oc dt children rs hoc hdt hnd hcov hch ih =>
      intro hwf
      have hchild_dt : ∀ m ∈ children,
          m.deepTime = sumLen (childRuns m.code (subsOf rs)) :=
        fun m hm => Realizes.deepTime_eq (hch m hm)
      have hsub : ((CNode.mk c oc dt children).children.map
          CNode.deepTime).sum ≤ dt := by
        have hmap : children.map CNode.deepTime =
            (children.map CNode.code).map
              (fun cd => sumLen (childRuns cd (subsOf rs))) := by
          rw [List.map_map]
          exact List.map_congr_left (fun m hm => hchild_dt m hm)
        have hpart := sum_filter_partition Run.code Run.len
          (subsOf rs) (children.map CNode.code) hnd hcov
        have hle := sumLen_subsOf rs hwf
        simp only [CNode.children]
        rw [hmap]
        calc ((children.map CNode.code).map
                (fun cd => sumLen (childRuns cd (subsOf rs)))).sum
            = sumLen (subsOf rs) := by
              simpa [childRuns, sumLen] using hpart
          _ ≤ sumLen rs := hle
          _ = dt := hdt.symm
      have hdt0 : 0 ≤ dt := hdt ▸ sumLen_nonneg rs
      refine AllNodes.mk _ ⟨?_, ?_⟩ ?_
      · simp only [TimeInvariant, CNode.ownTime, CNode.subTime,
          CNode.deepTime, CNode.children] at hsub ⊢
        apply max_le hdt0
        have hs0 : 0 ≤ (children.map CNode.deepTime).sum := by
          apply List.sum_nonneg
          intro x hx
          rcases List.mem_map.mp hx with ⟨m, hm, hmx⟩
          rw [← hmx, hchild_dt m hm]
          exact sumLen_nonneg _
        linarith
      · simpa [CNode.subTime, CNode.deepTime] using hsub
      · intro m hm
        exact ih m hm
          (fun r hr => wf_subsOf rs hwf r (List.mem_filter.mp hr).1)

/-- C2 (counterexample): the claim includes the root node, but the
root's `own_time` is `cpu_time` and its `deep_time` is `wall_time`,
which `record_stopping` measures independently — a quiescent,
consistently frozen snapshot whose CPU clock advanced by 2 during a
wall-clock window of 1 (a multi-threaded CPU timer does exactly this)
violates `own_time ≤ deep_time` at the root. -/
theorem root_time_invariant_fails : ¬ C2Claim := by
  intro h
  have hcons : ConsistentFrozen ⟨2, 1, []⟩ := by
    constructor
    · refine ⟨0, 0, 2, 1, ⟨2, 1, none, none⟩, ?_, rfl, rfl⟩
      unfold recordStarting recordStopping RootState.init
      norm_num [max_def]
    · intro c hc
      exact absurd hc (List.not_mem_nil c)
  have h2 := (h ⟨2, 1, []⟩ hcons).1.1
  simp only [FrozenRootTree.rootOwnTime, FrozenRootTree.rootDeepTime] at h2
  norm_num at h2

/-- C2 (witness): the amended invariant at a concrete two-node tree
realized by one activation of code 1 over `[0, 2]` containing one
activation of code 2 over `[0, 1]`. -/
theorem consistent_tree_time_invariant_witness :
    AllNodes TimeInvariant
      (CNode.mk 1 1 2 [CNode.mk 2 1 1 []]) := by
  have hchild : Realizes (CNode.mk 2 1 1 [])
      (childRuns 2 (subsOf [Run.act 1 0 2 [Run.act 2 0 1 []]])) := by
    have hcr : childRuns 2 (subsOf [Run.act 1 0 2 [Run.act 2 0 1 []]]) =
        [Run.act 2 0 1 []] := by
      simp [childRuns, subsOf, Run.subs, Run.code]
    rw [hcr]
    refine Realizes.mk 2 1 1 [] [Run.act 2 0 1 []] rfl ?_ (by simp) ?_ ?_
    · simp [sumLen, Run.len, Run.tIn, Run.tOut]
    · intro r hr
      simp [subsOf, Run.subs] at hr
    · intro m hm
      exact absurd hm (List.not_mem_nil m)
  have hR : Realizes (CNode.mk 1 1 2 [CNode.mk 2 1 1 []])
      [Run.act 1 0 2 [Run.act 2 0 1 []]] := by
    refine Realizes.mk 1 1 2 [CNode.mk 2 1 1 []]
      [Run.act 1 0 2 [Run.act 2 0 1 []]] rfl ?_ (by simp) ?_ ?_
    · simp [sumLen, Run.len, Run.tIn, Run.tOut]
    · intro r hr
      simp only [subsOf, List.flatMap_cons, Run.subs,
        List.flatMap_nil, List.append_nil] at hr
      rcases List.mem_cons.mp hr with he | he
      · subst he
        simp [CNode.code, Run.code]
      · exact absurd he (List.not_mem_nil r)
    · intro m hm
      rcases List.mem_cons.mp hm with he | he
      · subst he
        simpa [CNode.code] using hchild
      · exact absurd he (List.not_mem_nil m)
  have hwf : ∀ r ∈ [Run.act 1 0 2 [Run.act 2 0 1 []]], Wf r := by
    intro r hr
    rcases List.mem_cons.mp hr with he | he
    · subst he
      refine Wf.mk 1 0 2 [Run.act 2 0 1 []] (by norm_num) ?_ ?_
      · refine Seq.cons 0 2 _ _ ?_ ?_
        · simp [Run.tIn]
        · simp only [Run.tOut]
          exact Seq.nil 1 2 (by norm_num)
      · intro x hx
        rcases List.mem_cons.mp hx with hxe | hxe
        · subst hxe
          exact Wf.mk 2 0 1 [] (by norm_num) (Seq.nil 0 1 (by norm_num))
            (fun y hy => absurd hy (List.not_mem_nil y))
        · exact absurd hxe (List.not_mem_nil x)
    · exact absurd he (List.not_mem_nil r)
  exact consistent_tree_time_invariant _ _ hR hwf

/-! ## Claim C9 -/

theorem freezeStat_chain_none : ∀ n fuel, fuel ≤ n →
    freezeStat fuel (chainStat n) = none := by
  intro n
  induction n with
  | zero =>
      intro fuel h
      interval_cases fuel
      simp [freezeStat]
  | succ n ih =>
      intro fuel h
      match fuel, h with
      | 0, _ => simp [freezeStat]
      | fuel + 1, h =>
          have hle : fuel ≤ n := by omega
          simp [freezeStat, chainStat, freezeChildren, ih fuel hle]

theorem freezeStat_chain_some : ∀ n,
    freezeStat (n + 1) (chainStat n) = some (chainStat n) := by
  intro n
  induction n with
  | zero => simp [freezeStat, chainStat, freezeChildren]
  | succ n ih => simp [freezeStat, chainStat, freezeChildren, ih]

theorem flattenStatsF_chain_none : ∀ n fuel (r : Reg), fuel ≤ n →
    flattenStatsF fuel r [chainStat n] = none := by
  intro n
  induction n with
  | zero =>
      intro fuel r h
      interval_cases fuel
      simp [flattenStatsF]
  | succ n ih =>
      intro fuel r h
      match fuel, h with
      | 0, _ => simp [flattenStatsF]
      | fuel + 1, h =>
          have hle : fuel ≤ n := by omega
          simp [chainStat, flattenStatsF, ih fuel _ hle]

theorem flattenStatsF_chain_some : ∀ n (r : Reg),
    flattenStatsF (n + 2) r [chainStat n] =
      some (flattenStats r [chainStat n]) := by
  intro n
  induction n with
  | zero =>
      intro r
      simp [chainStat, flattenStatsF, flattenStats]
  | succ n ih =>
      intro r
      simp [chainStat, flattenStatsF, flattenStats, ih]

/-- C9: freezing and flattening are language-level recursion, one
interpreter frame deeper per tree level, not an explicit work-list: at
CPython's default recursion limit (1000) both fail with `RecursionError`
on a 1000-deep chain (returning `none` in the fueled model), while with
fuel beyond the tree depth both complete — confirming the failure is
exactly the interpreter recursion limit. -/
theorem freeze_flatten_recursion_limit :
    freezeStat RECURSION_LIMIT (chainStat RECURSION_LIMIT) = none ∧
    flattenStatsF RECURSION_LIMIT [] [chainStat RECURSION_LIMIT] = none ∧
    (∀ n, freezeStat (n + 1) (chainStat n) = some (chainStat n)) ∧
    (∀ n, flattenStatsF (n + 2) [] [chainStat n] =
        some (flattenStats [] [chainStat n])) :=
  ⟨freezeStat_chain_none RECURSION_LIMIT RECURSION_LIMIT (le_refl _),
   flattenStatsF_chain_none RECURSION_LIMIT RECURSION_LIMIT [] (le_refl _),
   freezeStat_chain_some,
   fun n => flattenStatsF_chain_some n []⟩

/-! ## Claim C3 -/

theorem decNat_encNat (n : Nat) (rest : List Nat) :
    decNat (encNat n ++ rest) = some (n, rest) := by
  induction n with
  | zero => simp [encNat, decNat]
  | succ n ih =>
      simp only [encNat, List.append_assoc, List.singleton_append] at ih
      simp only [encNat, List.replicate_succ, List.cons_append,
        List.append_eq, List.append_assoc, List.singleton_append,
        List.nil_append, decNat, ih]

theorem decInt_encInt (i : Int) (rest : List Nat) :
    decInt (encInt i ++ rest) = some (i, rest) := by
  unfold encInt
  by_cases hi : i < 0
  · rw [if_pos hi]
    simp [decInt, decNat_encNat]
    rw [abs_of_neg hi, neg_neg]
  · rw [if_neg hi]
    simp [decInt, decNat_encNat]
    omega

theorem decRat_encRat (q : Rat) (rest : List Nat) :
    decRat (encRat q ++ rest) = some (q, rest) := by
  unfold encRat decRat
  rw [List.append_assoc, decInt_encInt]
  simp [decNat_encNat, Rat.mkRat_self]

theorem decChars_enc (cs : List Char) (rest : List Nat) :
    decChars cs.length
      ((cs.map (fun c => encNat c.toNat)).flatten ++ rest) =
      some (cs, rest) := by
  induction cs with
  | nil => simp [decChars]
  | cons c cs ih =>
      simp only [List.length_cons, List.map_cons, List.flatten_cons,
        decChars, List.append_assoc, decNat_encNat]
      rw [ih, Char.ofNat_toNat]

theorem decStr_encStr (s : String) (rest : List Nat) :
    decStr (encStr s ++ rest) = some (s, rest) := by
  obtain ⟨l⟩ := s
  have htl : String.toList (String.mk l) = l := rfl
  unfold encStr decStr
  rw [htl, List.append_assoc]
  simp only [decNat_encNat]
  simp [decChars_enc]

theorem loads_dumps : ∀ fuel : Nat,
    (∀ (p : PyObj) (bs : List Nat), dumps fuel p = some bs →
      ∀ rest, loadsObj fuel (bs ++ rest) = some (p, rest)) ∧
    (∀ (xs : List PyObj) (bs : List Nat), dumpsList fuel xs = some bs →
      ∀ rest, loadsList fuel xs.length (bs ++ rest) = some (xs, rest)) := by
  intro fuel
  induction fuel with
  | zero =>
      constructor
      · intro p bs h
        simp [dumps] at h
      · intro xs bs h rest
        cases xs with
        | nil =>
            simp [dumpsList] at h
            subst h
            simp [loadsList]
        | cons x xs => simp [dumpsList, dumps] at h
  | succ fuel ih =>
      have hP : ∀ (p : PyObj) (bs : List Nat), dumps (fuel + 1) p = some bs →
          ∀ rest, loadsObj (fuel + 1) (bs ++ rest) = some (p, rest) := by
        intro p bs h rest
        cases p with
        | pNone =>
            simp [dumps] at h
            subst h
            simp [loadsObj]
        | pInt i =>
            simp [dumps] at h
            subst h
            simp [loadsObj, decInt_encInt]
        | pRat q =>
            simp [dumps] at h
            subst h
            simp [loadsObj, decRat_encRat]
        | pStr s =>
            simp [dumps] at h
            subst h
            simp [loadsObj, decStr_encStr]
        | pTuple xs =>
            simp only [dumps] at h
            cases hdl : dumpsList fuel xs with
            | none => rw [hdl] at h; exact absurd h (by simp)
            | some b =>
                rw [hdl] at h
                simp only [Option.some.injEq] at h
                subst h
                simp only [List.cons_append, loadsObj, List.append_assoc,
                  decNat_encNat]
                rw [(ih.2) xs b hdl rest]
                norm_num
        | pList xs =>
            simp only [dumps] at h
            cases hdl : dumpsList fuel xs with
            | none => rw [hdl] at h; exact absurd h (by simp)
            | some b =>
                rw [hdl] at h
                simp only [Option.some.injEq] at h
                subst h
                simp only [List.cons_append, loadsObj, List.append_assoc,
                  decNat_encNat]
                rw [(ih.2) xs b hdl rest]
                norm_num
      constructor
      · exact hP
      · intro xs
        induction xs with
        | nil =>
            intro bs h rest
            simp [dumpsList] at h
            subst h
            simp [loadsList]
        | cons x xs ihxs =>
            intro bs h rest
            simp only [dumpsList] at h
            cases hd1 : dumps (fuel + 1) x with
            | none => rw [hd1] at h; exact absurd h (by simp)
            | some b1 =>
                cases hd2 : dumpsList (fuel + 1) xs with
                | none => rw [hd1, hd2] at h; exact absurd h (by simp)
                | some b2 =>
                    rw [hd1, hd2] at h
                    simp only [Option.some.injEq] at h
                    subst h
                    simp only [List.length_cons, loadsList,
                      List.append_assoc]
                    simp only [hP x b1 hd1 (b2 ++ rest),
                      ihxs b2 hd2 rest]

theorem be32_length (n : Nat) : (be32 n).length = 4 := rfl

theorem debe32_be32 (n : Nat) (h : n < 2 ^ 32) : debe32 (be32 n) = n := by
  simp only [be32, debe32]
  omega

theorem dumps_deepPy_none : ∀ n fuel, fuel ≤ n →
    dumps fuel (deepPy n) = none := by
  intro n
  induction n with
  | zero =>
      intro fuel h
      interval_cases fuel
      simp [dumps]
  | succ n ih =>
      intro fuel h
      match fuel, h with
      | 0, _ => simp [dumps]
      | fuel + 1, h =>
          have hle : fuel ≤ n := by omega
          simp [deepPy, dumps, dumpsList, ih fuel hle]

theorem recvMsg_packMsg (m : Nat) (p : PyObj) (bytes : List Nat)
    (h : packMsg m p = some bytes) : recvMsg bytes = some ((m, p), []) := by
  unfold packMsg at h
  cases hd : dumps RECURSION_LIMIT p with
  | none => rw [hd] at h; exact absurd h (by simp)
  | some d =>
      rw [hd] at h
      have h2 : (if m < 256 ∧ d.length < 2 ^ 32 then
          some (m :: (be32 d.length ++ d)) else none) = some bytes := h
      by_cases hc : m < 256 ∧ d.length < 2 ^ 32
      · rw [if_pos hc] at h2
        simp only [Option.some.injEq] at h2
        subst h2
        have h1 : recvBytes (m :: (be32 d.length ++ d)) 1 =
            some ([m], be32 d.length ++ d) := by
          unfold recvBytes
          rw [if_pos (by simp)]
          simp
        have hrb2 : recvBytes (be32 d.length ++ d) 4 =
            some (be32 d.length, d) := by
          unfold recvBytes
          rw [if_pos (by simp [be32_length])]
          rw [← be32_length d.length, List.take_left, List.drop_left]
        have h3 : recvBytes d d.length = some (d, []) := by
          unfold recvBytes
          rw [if_pos (le_refl _)]
          rw [List.take_length, List.drop_length]
        have h4 := (loads_dumps RECURSION_LIMIT).1 p d hd []
        rw [List.append_nil] at h4
        unfold recvMsg
        simp only [h1, hrb2, debe32_be32 d.length hc.2, h3, h4]
      · rw [if_neg hc] at h2
        exact absurd h2 (by simp)

/-- C3: the framing round-trips — `recv_msg` applied to the bytes of a
successful `pack_msg(k, p)` yields exactly `(k, p)` — but encoding is the
recursive pickler: at CPython's recursion limit (1000) a payload nested
1000 levels deep fails with `RecursionError` (`none` in the fueled
model) instead of round-tripping. -/
theorem wire_roundtrip_recursion_limit :
    (∀ (m : Nat) (p : PyObj) (bytes : List Nat),
        packMsg m p = some bytes → recvMsg bytes = some ((m, p), [])) ∧
    packMsg RESULT (deepPy RECURSION_LIMIT) = none := by
  constructor
  · exact recvMsg_packMsg
  · unfold packMsg
    rw [dumps_deepPy_none RECURSION_LIMIT RECURSION_LIMIT (le_refl _)]

/-- C3 (witness): a concrete `RESULT` message with payload `7`
round-trips through the framing. -/
theorem wire_roundtrip_recursion_limit_witness :
    packMsg RESULT (.pInt 7) =
      some [18, 0, 0, 0, 10, 1, 0, 1, 1, 1, 1, 1, 1, 1, 0] ∧
    recvMsg [18, 0, 0, 0, 10, 1, 0, 1, 1, 1, 1, 1, 1, 1, 0] =
      some ((RESULT, .pInt 7), []) := by
  have hd : dumps RECURSION_LIMIT (.pInt 7) =
      some [1, 0, 1, 1, 1, 1, 1, 1, 1, 0] := by
    rw [show RECURSION_LIMIT = 999 + 1 from rfl]
    simp only [dumps]
    decide
  have hpack : packMsg RESULT (.pInt 7) =
      some [18, 0, 0, 0, 10, 1, 0, 1, 1, 1, 1, 1, 1, 1, 0] := by
    unfold packMsg
    rw [hd]
    decide
  exact ⟨hpack,
    wire_roundtrip_recursion_limit.1 RESULT (.pInt 7) _ hpack⟩

/-! ## Claim C4 -/

/-- C4 (counterexample): flattening does not key entries by the
Call-Site Identity `(name, filename, lineno)` of `Statistic.__hash__` —
`_flatten_stats` keys its registry by `regular_name` (`module:name`).
Two siblings with the same module and name but different files/lines are
distinct identities, yet they merge into a single flat entry, so the
second identity never appears in the flattened view. -/
theorem flatten_merges_distinct_identities :
    ¬ C4Claim [.mk (some "f") (some "a.py") (some "m") (some 1) 2 3 [],
               .mk (some "f") (some "b.py") (some "m") (some 9) 4 5 []] := by
  intro h
  have hreg : flattenStats []
      [.mk (some "f") (some "a.py") (some "m") (some 1) 2 3 [],
       .mk (some "f") (some "b.py") (some "m") (some 9) 4 5 []] =
      [(some "m:f",
        ⟨some "f", some "a.py", some "m", some 1, 6, 8, 8⟩)] := by
    norm_num [flattenStats, regAdd, alookup, astore, bumpFlat, freshFlat,
      FStat.regularName, regularName, truthy, pyOr, FStat.ownTime,
      FStat.subTime, FStat.name, FStat.module, FStat.filename,
      FStat.lineno, FStat.ownCount, FStat.deepTime, FStat.children,
      max_def]
    decide
  have h2 := h.2.1 (.mk (some "f") (some "b.py") (some "m") (some 9) 4 5 [])
      (by simp [spreadStats])
  rw [hreg] at h2
  simp [FStat.identity, FlatStat.identity, FStat.name, FStat.filename,
    FStat.lineno] at h2

/-- C4 (amended): the flattened view is keyed by `regular_name`
(`module:name`), not by the full Call-Site Identity: each distinct
`regular_name` of the tree appears exactly once; each flat entry's
`own_hits` and `deep_time` are the sums over every occurrence of that
`regular_name` at any depth; consequently the `own_hits`/`deep_time`
totals over the flattened view equal the totals over every node of the
original tree below the root. -/
theorem flatten_regular_name_totals (ss : List FStat) :
    (regKeys (flattenStats [] ss)).Nodup ∧
    (∀ k, k ∈ regKeys (flattenStats [] ss) ↔
        k ∈ (spreadStats ss).map FStat.regularName) ∧
    (∀ p ∈ flattenStats [] ss,
        p.2.ownCount = (((spreadStats ss).filter
            (fun s => decide (s.regularName = p.1))).map
              FStat.ownCount).sum ∧
        p.2.deepTime = (((spreadStats ss).filter
            (fun s => decide (s.regularName = p.1))).map
              FStat.deepTime).sum) ∧
    regTot (fun f => f.ownCount) (flattenStats [] ss)
        = ((spreadStats ss).map FStat.ownCount).sum ∧
    regTot (fun f => f.deepTime) (flattenStats [] ss)
        = ((spreadStats ss).map FStat.deepTime).sum := by
  have hnd : (regKeys (flattenStats [] ss)).Nodup :=
    regKeys_flattenStats_nodup [] ss (by simp [regKeys])
  have hmem : ∀ k, k ∈ regKeys (flattenStats [] ss) ↔
      k ∈ (spreadStats ss).map FStat.regularName := by
    intro k
    rw [mem_regKeys_flattenStats]
    simp [regKeys]
  have hcov : ∀ s ∈ spreadStats ss,
      FStat.regularName s ∈ regKeys (flattenStats [] ss) := by
    intro s hs
    exact (hmem _).mpr (List.mem_map.mpr ⟨s, hs, rfl⟩)
  have hvalOwn : ∀ k, vOf (fun f => f.ownCount) (flattenStats [] ss) k =
      wKey FStat.ownCount k ss := by
    intro k
    have := vOf_flattenStats (fun f => f.ownCount) FStat.ownCount
      (fun f s => rfl) (fun s => rfl) k [] ss
    simpa [vOf, alookup] using this
  have hvalDeep : ∀ k, vOf (fun f => f.deepTime) (flattenStats [] ss) k =
      wKey FStat.deepTime k ss := by
    intro k
    have := vOf_flattenStats (fun f => f.deepTime) FStat.deepTime
      (fun f s => rfl) (fun s => rfl) k [] ss
    simpa [vOf, alookup] using this
  refine ⟨hnd, hmem, ?_, ?_, ?_⟩
  · intro p hp
    obtain ⟨k, f⟩ := p
    constructor
    · have h1 := vOf_entry (fun f => f.ownCount) _ k f hnd hp
      rw [hvalOwn k] at h1
      exact h1.symm
    · have h1 := vOf_entry (fun f => f.deepTime) _ k f hnd hp
      rw [hvalDeep k] at h1
      exact h1.symm
  · rw [regTot_eq_sum_keys _ _ hnd,
      List.map_congr_left (fun k _ => hvalOwn k)]
    exact sum_filter_partition FStat.regularName FStat.ownCount
      (spreadStats ss) (regKeys (flattenStats [] ss)) hnd hcov
  · rw [regTot_eq_sum_keys _ _ hnd,
      List.map_congr_left (fun k _ => hvalDeep k)]
    exact sum_filter_partition FStat.regularName FStat.deepTime
      (spreadStats ss) (regKeys (flattenStats [] ss)) hnd hcov

/-! ## Claim C5 -/

/-- C5: flattening is idempotent — applying `_flatten_stats` to the
children of an already-flat snapshot (childless `FlatStatistic` entries
with stored accumulators) rebuilds exactly the same registry, entry for
entry, so `flatten(flatten(s)) == flatten(s)`. -/
theorem flatten_idempotent (ss : List FStat) :
    flattenFlat [] ((flattenStats [] ss).map Prod.snd) =
      flattenStats [] ss := by
  have h := flattenFlat_fresh_keys (flattenStats [] ss) []
    (wellKeyed_flattenStats [] ss (fun p hp => absurd hp (List.not_mem_nil p)))
    (regKeys_flattenStats_nodup [] ss (by simp [regKeys]))
    (fun k _ => rfl)
  simpa using h

/-! ## Claim C6 -/

theorem broadcastLoop_eq (send : Nat → Option Int) (cs : List Nat) :
    broadcastLoop send cs =
      (cs.map (fun c =>
          match send c with
          | none => BAction.sendOk c
          | some e => BAction.sendFail c e),
       cs.filter (fun c => decide (send c = some EPIPE))) := by
  induction cs with
  | nil => rfl
  | cons c cs ih =>
      cases hs : send c with
      | none => simp [broadcastLoop, hs, ih]
      | some e =>
          by_cases he : e = EPIPE
          · subst he
            simp [broadcastLoop, hs, ih]
          · simp [broadcastLoop, hs, he, ih]

theorem count_sendOk_map_zero (send : Nat → Option Int) (c : Nat) :
    ∀ cs : List Nat, c ∉ cs →
      ((cs.map (fun x =>
          match send x with
          | none => BAction.sendOk x
          | some e => BAction.sendFail x e)).count (.sendOk c)) = 0 := by
  intro cs
  induction cs with
  | nil => intro _; rfl
  | cons a cs ih =>
      intro h
      simp only [List.mem_cons, not_or] at h
      rw [List.map_cons, List.count_cons, ih h.2]
      cases hs : send a with
      | none => simp [Ne.symm h.1]
      | some e => simp

theorem count_sendOk_map (send : Nat → Option Int) (c : Nat) :
    ∀ cs : List Nat, cs.Nodup → c ∈ cs →
      ((cs.map (fun x =>
          match send x with
          | none => BAction.sendOk x
          | some e => BAction.sendFail x e)).count (.sendOk c)) =
        if send c = none then 1 else 0 := by
  intro cs
  induction cs with
  | nil => intro _ h; simp at h
  | cons a cs ih =>
      intro hnd hmem
      rw [List.nodup_cons] at hnd
      rw [List.map_cons, List.count_cons]
      rcases List.mem_cons.mp hmem with he | ht
      · subst he
        rw [count_sendOk_map_zero send c cs hnd.1]
        cases hs : send c with
        | none => simp
        | some e => simp
      · have hne : a ≠ c := fun he => hnd.1 (he ▸ ht)
        rw [ih hnd.2 ht]
        cases hs : send a with
        | none => simp [hne]
        | some e => simp

theorem count_sendOk_disconnects (c : Nat) (l : List Nat) :
    ((l.map BAction.disconnect).count (.sendOk c)) = 0 := by
  rw [List.count_eq_zero]
  intro h
  rcases List.mem_map.mp h with ⟨x, _, hx⟩
  exact absurd hx (by simp)

/-- C6 (counterexample): the claim says the failed connections are
collected and disconnected after the broadcast loop; but the
`except socket.error` handler collects a client only when the errno is
`EPIPE` — here the first send fails with `ECONNRESET`, the loop catches
it and still serves the second viewer, yet the failed connection is
never collected nor disconnected. -/
theorem broadcast_non_epipe_not_disconnected :
    ¬ C6Claim (fun c => if c = 1 then some ECONNRESET else none) [1, 2] := by
  unfold C6Claim
  decide

/-- C6 (amended): `except socket.error` catches every send failure, so
the broadcast loop always completes — each viewer whose send succeeds
receives exactly one RESULT frame regardless of other viewers'
failures, and the trace is all send attempts followed by all
disconnections (never a disconnect mid-loop); but exactly the
`EPIPE`-failing connections are collected and disconnected after the
loop: a failure with any other errno is swallowed and that connection
is never collected nor disconnected. -/
theorem broadcast_failures_tolerated (send : Nat → Option Int)
    (clients : List Nat) (hnd : clients.Nodup) :
    (∀ c ∈ clients, (broadcastCycle send clients).count (.sendOk c) =
        if send c = none then 1 else 0) ∧
    (∃ sends discs : List BAction,
        broadcastCycle send clients = sends ++ discs ∧
        (∀ a ∈ sends, ∀ c, a ≠ .disconnect c) ∧
        (∀ a ∈ discs, ∃ c, a = .disconnect c ∧ send c = some EPIPE ∧
            c ∈ clients)) ∧
    (∀ c ∈ clients, send c = some EPIPE →
        .disconnect c ∈ broadcastCycle send clients) ∧
    (∀ c ∈ clients, ∀ e, send c = some e → e ≠ EPIPE →
        .disconnect c ∉ broadcastCycle send clients) := by
  have hcyc : broadcastCycle send clients =
      clients.map (fun c =>
          match send c with
          | none => BAction.sendOk c
          | some e => BAction.sendFail c e) ++
        (clients.filter (fun c => decide (send c = some EPIPE))).map
          .disconnect := by
    unfold broadcastCycle
    rw [broadcastLoop_eq]
  refine ⟨?_, ?_, ?_, ?_⟩
  · intro c hmem
    rw [hcyc, List.count_append,
      count_sendOk_map send c clients hnd hmem, count_sendOk_disconnects]
    omega
  · refine ⟨_, _, hcyc, ?_, ?_⟩
    · intro a ha c
      rcases List.mem_map.mp ha with ⟨x, _, hx⟩
      cases hs : send x with
      | none => rw [hs] at hx; simp [← hx]
      | some e => rw [hs] at hx; simp [← hx]
    · intro a ha
      rcases List.mem_map.mp ha with ⟨x, hxmem, hx⟩
      rw [List.mem_filter] at hxmem
      refine ⟨x, hx.symm, ?_, hxmem.1⟩
      simpa using hxmem.2
  · intro c hmem hs
    rw [hcyc]
    apply List.mem_append_right
    exact List.mem_map.mpr ⟨c, List.mem_filter.mpr ⟨hmem, by simp [hs]⟩, rfl⟩
  · intro c hmem e hs hne hmemtr
    rw [hcyc] at hmemtr
    rcases List.mem_append.mp hmemtr with h1 | h1
    · rcases List.mem_map.mp h1 with ⟨x, _, hx⟩
      cases hsx : send x with
      | none => rw [hsx] at hx; exact absurd hx (by simp)
      | some e2 => rw [hsx] at hx; exact absurd hx (by simp)
    · rcases List.mem_map.mp h1 with ⟨x, hxmem, hx⟩
      have hxc : x = c := by simpa using hx
      subst hxc
      rw [List.mem_filter] at hxmem
      have h2 : send x = some EPIPE := by simpa using hxmem.2
      rw [hs] at h2
      simp only [Option.some.injEq] at h2
      exact hne h2

/-- C6 (witness): three viewers — one send breaks with `ECONNRESET`, one
succeeds, one breaks with `EPIPE`: the healthy viewer is served once,
the `EPIPE` connection is disconnected after the loop, and the
`ECONNRESET` connection is never disconnected. -/
theorem broadcast_failures_tolerated_witness :
    (broadcastCycle (fun c => if c = 1 then some ECONNRESET else
        if c = 3 then some EPIPE else none) [1, 2, 3]).count (.sendOk 2) =
      (if (fun c : Nat => if c = 1 then some ECONNRESET else
        if c = 3 then some EPIPE else none) 2 = none then 1 else 0) ∧
    BAction.disconnect 3 ∈
      broadcastCycle (fun c => if c = 1 then some ECONNRESET else
        if c = 3 then some EPIPE else none) [1, 2, 3] ∧
    BAction.disconnect 1 ∉
      broadcastCycle (fun c => if c = 1 then some ECONNRESET else
        if c = 3 then some EPIPE else none) [1, 2, 3] := by
  have h := broadcast_failures_tolerated
    (fun c => if c = 1 then some ECONNRESET else
      if c = 3 then some EPIPE else none) [1, 2, 3] (by decide)
  exact ⟨h.1 2 (by decide),
    h.2.2.1 3 (by decide) (by decide),
    h.2.2.2 1 (by decide) ECONNRESET (by decide) (by decide)⟩

/-! ## Claim C7 -/

/-- C7: the measurement cycle is gated on viewer-count edges —
`connected` starts the profiling loop exactly when the client set size
becomes 1, a second distinct viewer causes no second start, the loop
keeps running while clients remain and stops exactly once at the first
resume after the last viewer disconnects; the spec's scenario (connect
two, disconnect both) performs exactly one start and one stop. -/
theorem cycle_gating :
    (∀ (s : SrvState) (c : Nat), s.clients = [] →
        (connectedEv s c).starts = s.starts + 1 ∧
        (connectedEv s c).loopActive = true) ∧
    (∀ (s : SrvState) (c : Nat), s.clients ≠ [] → c ∉ s.clients →
        (connectedEv s c).starts = s.starts ∧
        (connectedEv s c).loopActive = s.loopActive) ∧
    (∀ s : SrvState, s.loopActive = true → s.clients ≠ [] →
        resumeEv s = s) ∧
    (∀ s : SrvState, s.loopActive = true → s.clients = [] →
        (resumeEv s).stops = s.stops + 1 ∧
        (resumeEv s).loopActive = false) ∧
    (∀ s : SrvState, s.loopActive = false → resumeEv s = s) ∧
    SrvState.run SrvState.init
        [.conn 1, .conn 2, .resume, .disc 1, .resume, .disc 2,
         .resume, .resume] = ⟨[], false, 1, 1⟩ := by
  refine ⟨?_, ?_, ?_, ?_, ?_, by decide⟩
  · intro s c h
    simp [connectedEv, h]
  · intro s c hne hnm
    simp [connectedEv, hnm, hne]
  · intro s ha he
    have : ¬ s.clients.isEmpty = true := by
      simpa [List.isEmpty_iff] using he
    simp [resumeEv, ha, this]
  · intro s ha he
    simp [resumeEv, ha, he]
  · intro s ha
    simp [resumeEv, ha]

/-- C7 (witness): the edge behaviours at concrete states — a first
connection starts, a second does not, resuming with a viewer left does
not stop, resuming with none left stops. -/
theorem cycle_gating_witness :
    ((connectedEv SrvState.init 3).starts = SrvState.init.starts + 1 ∧
      (connectedEv SrvState.init 3).loopActive = true) ∧
    ((connectedEv ⟨[7], true, 1, 0⟩ 8).starts = 1 ∧
      (connectedEv ⟨[7], true, 1, 0⟩ 8).loopActive = true) ∧
    resumeEv ⟨[7], true, 1, 0⟩ = ⟨[7], true, 1, 0⟩ ∧
    ((resumeEv ⟨[], true, 1, 0⟩).stops = 1 ∧
      (resumeEv ⟨[], true, 1, 0⟩).loopActive = false) :=
  ⟨cycle_gating.1 SrvState.init 3 rfl,
   cycle_gating.2.1 ⟨[7], true, 1, 0⟩ 8 (by decide) (by decide),
   cycle_gating.2.2.1 ⟨[7], true, 1, 0⟩ rfl (by decide),
   cycle_gating.2.2.2.1 ⟨[], true, 1, 0⟩ rfl rfl⟩

end Profiling
